import Mathlib

/-!
Shallow embedding of the market-data backend (`backend/server/index.js`).

The relational store is modelled as an explicit in-memory state:
`coins` is the list of tracked symbols (table `coins`) and `market_data`
is the list of stored rows in insertion order (table `market_data`).
Timestamps are `Int` (SQL `BIGINT`); the three metric columns are `Rat`
(SQL `NUMERIC`).  SQL `ORDER BY timestamp DESC` is modelled by
`List.mergeSort` with a descending comparator, `LIMIT n` by `List.take`,
`WHERE` clauses by `List.filter`, and `DELETE ... WHERE` by `List.filter`
with the negated predicate together with the count of removed rows.
The unique index `uq_market_symbol_timestamp` is modelled by the
`keyUnique` invariant together with the conflict test performed by
`storePoint` (`ON CONFLICT (symbol, timestamp) DO NOTHING`), and the
foreign key `market_data.symbol REFERENCES coins(symbol)` by the
membership test in `storePoint`.
-/

/-- One row of `market_data` as stored (column names follow the schema). -/
structure Sample where
  symbol : String
  timestamp : Int
  open_interest : Rat
  funding_rate : Rat
  price : Rat
deriving DecidableEq, Repr

/-- The JSON shape consumed and produced by the API (`toPoint` output /
`storePoint` input in `index.js`). -/
structure MarketDataPoint where
  timestamp : Int
  openInterest : Rat
  fundingRate : Rat
  price : Rat
deriving DecidableEq, Repr

/-- Database state: the `coins` table (symbols) and the `market_data` table
(rows in insertion order). -/
structure DB where
  coins : List String
  market_data : List Sample
deriving DecidableEq, Repr

/-- The row that the parameterised `INSERT INTO market_data(...)` of
`storePoint` creates from a symbol and a point. -/
def mkSample (sym : String) (p : MarketDataPoint) : Sample :=
  ⟨sym, p.timestamp, p.openInterest, p.fundingRate, p.price⟩

/-- `toPoint` from `index.js`: map a DB row to the frontend-friendly shape.
(`Number` / `parseFloat` decoding is modelled as the identity on the exact
stored values.) -/
def toPoint (r : Sample) : MarketDataPoint :=
  ⟨r.timestamp, r.open_interest, r.funding_rate, r.price⟩

/-- Whether some stored row has the key `(sym, ts)` — the conflict test of
the unique index `uq_market_symbol_timestamp`. -/
def hasKey (rows : List Sample) (sym : String) (ts : Int) : Bool :=
  rows.any (fun r => r.symbol == sym && r.timestamp == ts)

/-- The invariant enforced by the unique index `uq_market_symbol_timestamp`:
no two rows share the key `(symbol, timestamp)`. -/
def keyUnique : List Sample → Bool
  | [] => true
  | r :: rs => !(hasKey rs r.symbol r.timestamp) && keyUnique rs

/-- `storePoint` from `index.js`:
`INSERT INTO market_data(symbol, timestamp, open_interest, funding_rate, price)
VALUES($1,$2,$3,$4,$5) ON CONFLICT (symbol, timestamp) DO NOTHING`.
The insert fails with a foreign-key violation when `symbol` is not in
`coins`; a key conflict is silently ignored (`DO NOTHING`); otherwise the
row is appended. -/
def storePoint (db : DB) (sym : String) (p : MarketDataPoint) : Except String DB :=
  if db.coins.contains sym then
    if hasKey db.market_data sym p.timestamp then
      Except.ok db
    else
      Except.ok { db with market_data := db.market_data ++ [mkSample sym p] }
  else
    Except.error ("insert or update on table market_data violates foreign key constraint")

/-- Descending comparator on timestamps: `ORDER BY timestamp DESC`. -/
def tsDesc (a b : Sample) : Bool := decide (b.timestamp ≤ a.timestamp)

/-- Ascending comparator on timestamps: `ORDER BY timestamp ASC`. -/
def tsAsc (a b : Sample) : Bool := decide (a.timestamp ≤ b.timestamp)

/-- `WHERE symbol = $1`. -/
def rowsForSymbol (rows : List Sample) (sym : String) : List Sample :=
  rows.filter (fun r => r.symbol == sym)

/-- `WHERE symbol = $1 AND timestamp < $2`. -/
def beforeMatching (rows : List Sample) (sym : String) (c : Int) : List Sample :=
  rows.filter (fun r => r.symbol == sym && decide (r.timestamp < c))

/-- The shared shape of both read queries of `GET /api/market-data`:
`ORDER BY timestamp DESC LIMIT n` over an already-filtered row set,
followed by the handler's `.reverse()` back to ascending order. -/
def descPage (l : List Sample) (n : Nat) : List Sample :=
  ((l.mergeSort tsDesc).take n).reverse

/-- Default branch of `GET /api/market-data`: most recent `n` rows for the
symbol, returned ascending. -/
def latestRows (rows : List Sample) (sym : String) (n : Nat) : List Sample :=
  descPage (rowsForSymbol rows sym) n

/-- `before` branch of `GET /api/market-data`: the `n` rows with
`timestamp < c` closest to `c`, returned ascending. -/
def beforeRows (rows : List Sample) (sym : String) (c : Int) (n : Nat) : List Sample :=
  descPage (beforeMatching rows sym c) n

/-- Modelled from the spec: `range(symbol, start, end)` returns all samples
with `start ≤ timestamp ≤ end` in ascending order, unbounded count.  No
range endpoint exists in the backend source (`index.js` only implements the
`latest` and `before` query shapes); this definition follows §4.2 of the
spec so that the ordering invariant can be stated for it as well. -/
def rangeRows (rows : List Sample) (sym : String) (lo hi : Int) : List Sample :=
  (rows.filter
    (fun r => r.symbol == sym && decide (lo ≤ r.timestamp) && decide (r.timestamp ≤ hi))).mergeSort tsAsc

/-- The limit computation of the GET handler:
`Math.min(parseInt(String(req.query.limit)) || 100, 500)`.
`none` models an absent or unparsable (`NaN`) limit parameter; `parseInt`
giving `0` is falsy in JavaScript, so it also falls back to `100`. -/
def effectiveLimit (rawLimit : Option Int) : Int :=
  min (match rawLimit with
       | none => 100
       | some v => if v = 0 then 100 else v) 500

/-- Responses of `GET /api/market-data`: HTTP 400 with an error message,
HTTP 200 with a JSON list of points, or HTTP 500. -/
inductive GetResponse where
  | badRequest (error : String)
  | ok (points : List MarketDataPoint)
  | serverError
deriving DecidableEq, Repr

/-- Whether a GET response is a boundary rejection (HTTP 400). -/
def isRejected : GetResponse → Bool
  | GetResponse.badRequest _ => true
  | _ => false

/-- The `GET /api/market-data` handler.  `symbol`/`rawLimit`/`bfr` model the
query parameters after JavaScript parsing (`none` = absent / unparsable).
A missing or empty symbol is rejected with 400 (`!symbol`); a negative
effective limit reaches the database, whose `LIMIT` rejects negative
values, surfacing as the handler's catch-all 500. -/
def getMarketData (db : DB) (symbol : Option String) (rawLimit : Option Int)
    (bfr : Option Int) : GetResponse :=
  let limit := effectiveLimit rawLimit
  match symbol with
  | none => GetResponse.badRequest ("symbol query param required")
  | some sym =>
    if sym = "" then GetResponse.badRequest ("symbol query param required")
    else if limit < 0 then GetResponse.serverError
    else
      match bfr with
      | some c => GetResponse.ok ((beforeRows db.market_data sym c limit.toNat).map toPoint)
      | none => GetResponse.ok ((latestRows db.market_data sym limit.toNat).map toPoint)

/-- Responses of `POST /api/market-data`. -/
inductive PostResponse where
  | badRequest (error : String)
  | created (symbol : String) (timestamp : Int)
  | serverError
deriving DecidableEq, Repr

/-- Request body of `POST /api/market-data`; `none` models a missing field
(`== null` in the handler's check). -/
structure PostBody where
  symbol : Option String
  timestamp : Option Int
  openInterest : Option Rat
  fundingRate : Option Rat
  price : Option Rat
deriving DecidableEq, Repr

/-- The `POST /api/market-data` handler: validates field presence
(`!symbol || timestamp == null || ...`), then calls `storePoint`; a store
error is caught and answered with 500, leaving the database unchanged. -/
def postMarketData (db : DB) (b : PostBody) : PostResponse × DB :=
  match b.symbol, b.timestamp, b.openInterest, b.fundingRate, b.price with
  | some sym, some ts, some oi, some fr, some pr =>
    if sym = "" then (PostResponse.badRequest ("missing fields"), db)
    else
      match storePoint db sym ⟨ts, oi, fr, pr⟩ with
      | Except.ok db1 => (PostResponse.created sym ts, db1)
      | Except.error _ => (PostResponse.serverError, db)
  | _, _, _, _, _ => (PostResponse.badRequest ("missing fields"), db)

/-- `RETENTION_MS` from `index.js`: 7 days in milliseconds. -/
def RETENTION_MS : Int := 7 * 24 * 60 * 60 * 1000

/-- `DELETE FROM market_data WHERE timestamp < $1` together with the
returned `rowCount` of deleted rows. -/
def pruneOlderThan (db : DB) (cutoff : Int) : DB × Nat :=
  ({ db with
      market_data := db.market_data.filter (fun r => !decide (r.timestamp < cutoff)) },
   (db.market_data.filter (fun r => decide (r.timestamp < cutoff))).length)

/-- One per-symbol step of `runFetchCycle`: fetch (`none` models a fetch
failure), then store; any failure is caught, logged and skipped, leaving
the state as it was. -/
def cycleStep (fetchResult : String → Option MarketDataPoint) (acc : DB) (sym : String) : DB :=
  match fetchResult sym with
  | none => acc
  | some p =>
    match storePoint acc sym p with
    | Except.ok acc1 => acc1
    | Except.error _ => acc

/-- `runFetchCycle` from `index.js`: read the tracked symbols, fetch and
store each one with per-symbol error isolation, then prune rows older than
`now - RETENTION_MS`.  `fetchResult` is the fetch oracle for this cycle
(`none` = that symbol's fetch threw). -/
def runFetchCycle (db : DB) (fetchResult : String → Option MarketDataPoint) (now : Int) : DB :=
  (pruneOlderThan (db.coins.foldl (cycleStep fetchResult) db) (now - RETENTION_MS)).1

/-- Initial scheduling delay of the ingestion job: `setTimeout(..., 5 * 1000)`. -/
def initialDelayMs : Nat := 5 * 1000

/-- Fixed interval of the ingestion job: `setInterval(runFetchCycle, 60 * 1000)`. -/
def intervalMs : Nat := 60 * 1000

/-- Start instant of the k-th ingestion cycle under the source's scheduling
(`setTimeout` for 5 s, then `setInterval` every 60 s): a fixed-rate timer
fires at fixed instants, independent of how long each cycle runs. -/
def cycleStart (k : Nat) : Nat := initialDelayMs + intervalMs * k

/-- Cycle `k` (of duration `cycleDuration k`) is still running when cycle
`k+1` starts. -/
def cyclesOverlap (cycleDuration : Nat → Nat) (k : Nat) : Prop :=
  cycleStart (k + 1) < cycleStart k + cycleDuration k

/-- Strictly-ascending-by-timestamp order for stored rows. -/
def StrictAsc (r : List Sample) : Prop :=
  r.Pairwise (fun a b => a.timestamp < b.timestamp)

/-- What the claim asserts of the default (`latest`) query branch: strictly
ascending output drawn from the symbol's rows, of size `min n total`,
consisting exactly of the rows with the greatest timestamps, and all rows
when fewer than `n` exist. -/
def LatestSpec (rows : List Sample) (sym : String) (n : Nat) : Prop :=
  StrictAsc (latestRows rows sym n) ∧
  (∀ x ∈ latestRows rows sym n, x ∈ rowsForSymbol rows sym) ∧
  (latestRows rows sym n).length = min n (rowsForSymbol rows sym).length ∧
  (∀ s ∈ rowsForSymbol rows sym, s ∉ latestRows rows sym n →
    ∀ x ∈ latestRows rows sym n, s.timestamp < x.timestamp) ∧
  ((rowsForSymbol rows sym).length ≤ n → ∀ s ∈ rowsForSymbol rows sym, s ∈ latestRows rows sym n)

/-- What the claim asserts of the `before` query branch: strictly ascending
output drawn from the rows with `timestamp < c`, of size `min n total`,
consisting exactly of the such rows closest to the cursor; and pagination
with the earliest returned timestamp as the next cursor is contiguous
(every remaining older row lies below the new cursor, and the next page is
entirely older than the current one). -/
def BeforeSpec (rows : List Sample) (sym : String) (c : Int) (n : Nat) : Prop :=
  StrictAsc (beforeRows rows sym c n) ∧
  (∀ x ∈ beforeRows rows sym c n, x ∈ beforeMatching rows sym c ∧ x.timestamp < c) ∧
  (beforeRows rows sym c n).length = min n (beforeMatching rows sym c).length ∧
  (∀ s ∈ beforeMatching rows sym c, s ∉ beforeRows rows sym c n →
    ∀ x ∈ beforeRows rows sym c n, s.timestamp < x.timestamp) ∧
  (∀ h : beforeRows rows sym c n ≠ [],
    (∀ s ∈ beforeMatching rows sym c, s ∉ beforeRows rows sym c n →
      s.timestamp < ((beforeRows rows sym c n).head h).timestamp) ∧
    (∀ y ∈ beforeRows rows sym ((beforeRows rows sym c n).head h).timestamp n,
      ∀ x ∈ beforeRows rows sym c n, y.timestamp < x.timestamp))

/-- The ordering invariant over the whole query surface: any successful
response of the GET handler is strictly ascending by timestamp with no
duplicate timestamps, and so is the (spec-modelled) range query. -/
def OrderingSpec (db : DB) : Prop :=
  (∀ symbol rawLimit bfr pts, getMarketData db symbol rawLimit bfr = GetResponse.ok pts →
    pts.Pairwise (fun a b => a.timestamp < b.timestamp) ∧
    (pts.map (fun p => p.timestamp)).Nodup) ∧
  (∀ sym lo hi, StrictAsc (rangeRows db.market_data sym lo hi))

/-- The retention postcondition and frame: after pruning, no row is older
than the cutoff, every row at or after the cutoff is kept unchanged, no
row is invented, the returned count is the number of rows removed, and the
tracked symbols are untouched. -/
def PruneSpec (db : DB) (cutoff : Int) : Prop :=
  (∀ s ∈ (pruneOlderThan db cutoff).1.market_data, cutoff ≤ s.timestamp) ∧
  (∀ s ∈ db.market_data, cutoff ≤ s.timestamp → s ∈ (pruneOlderThan db cutoff).1.market_data) ∧
  (∀ s ∈ (pruneOlderThan db cutoff).1.market_data, s ∈ db.market_data) ∧
  ((pruneOlderThan db cutoff).2 + (pruneOlderThan db cutoff).1.market_data.length
    = db.market_data.length) ∧
  (pruneOlderThan db cutoff).1.coins = db.coins

/-- A small concrete database used to instantiate the theorems: one tracked
symbol with three stored samples at distinct timestamps. -/
def dbW : DB :=
  ⟨["BTCUSDT"],
   [⟨"BTCUSDT", 1000, 50, 1, 2⟩, ⟨"BTCUSDT", 2000, 51, 1, 3⟩, ⟨"BTCUSDT", 3000, 52, 1, 4⟩]⟩

/-- A concrete three-symbol database for the cycle-isolation scenario
(symbols A, B, C with no stored history). -/
def dbABC : DB := ⟨["BTCUSDT", "ETHUSDT", "SOLUSDT"], []⟩

/-- A concrete fetch oracle for one cycle: A and C fetch successfully,
B's fetch fails. -/
def fW : String → Option MarketDataPoint :=
  fun s =>
    if s = "BTCUSDT" then some ⟨600000, 10, 1, 50⟩
    else if s = "SOLUSDT" then some ⟨600001, 11, 1, 60⟩
    else none

/-!  Helper lemmas about the embedded store and queries. -/

/-- `keyUnique` as a pairwise statement: no two rows share both symbol and
timestamp. -/
theorem keyUnique_pairwise {rows : List Sample} (h : keyUnique rows = true) :
    rows.Pairwise (fun a b => ¬(a.symbol = b.symbol ∧ a.timestamp = b.timestamp)) := by
  induction rows with
  | nil => exact List.Pairwise.nil
  | cons r rs ih =>
    simp only [keyUnique, Bool.and_eq_true, Bool.not_eq_true'] at h
    refine List.Pairwise.cons ?_ (ih h.2)
    intro b hb hcon
    have hkey : hasKey rs r.symbol r.timestamp = true := by
      simp only [hasKey, List.any_eq_true]
      exact ⟨b, hb, by simp [hcon.1, hcon.2]⟩
    simp [h.1] at hkey

/-- Rows filtered down to a single symbol have pairwise-distinct timestamps
whenever the unique-index invariant holds. -/
theorem tsNe_filter {rows : List Sample} (h : keyUnique rows = true)
    {p : Sample → Bool} (sym : String)
    (hp : ∀ r, p r = true → r.symbol = sym) :
    (rows.filter p).Pairwise (fun a b => a.timestamp ≠ b.timestamp) := by
  have h2 : (rows.filter p).Pairwise
      (fun a b => ¬(a.symbol = b.symbol ∧ a.timestamp = b.timestamp)) :=
    List.Pairwise.sublist (List.filter_sublist rows) (keyUnique_pairwise h)
  refine h2.imp_of_mem ?_
  intro a b ha hb hcon heq
  have hsa := hp a (List.of_mem_filter ha)
  have hsb := hp b (List.of_mem_filter hb)
  exact hcon ⟨hsa.trans hsb.symm, heq⟩

/-- `ORDER BY timestamp DESC`: the sorted list is pairwise descending. -/
theorem mergeSort_tsDesc_sorted (l : List Sample) :
    (l.mergeSort tsDesc).Pairwise (fun a b => b.timestamp ≤ a.timestamp) := by
  have h := @List.sorted_mergeSort Sample tsDesc
    (fun a b c hab hbc => by
      simp only [tsDesc, decide_eq_true_eq] at hab hbc ⊢
      omega)
    (fun a b => by
      simp only [tsDesc, Bool.or_eq_true, decide_eq_true_eq]
      omega) l
  exact h.imp (fun hab => by simpa [tsDesc] using hab)

/-- With pairwise-distinct timestamps the descending sort is strictly
descending. -/
theorem mergeSort_tsDesc_strict {l : List Sample}
    (hne : l.Pairwise (fun a b => a.timestamp ≠ b.timestamp)) :
    (l.mergeSort tsDesc).Pairwise (fun a b => b.timestamp < a.timestamp) := by
  have hs := mergeSort_tsDesc_sorted l
  have hne2 : (l.mergeSort tsDesc).Pairwise (fun a b => a.timestamp ≠ b.timestamp) :=
    (List.Perm.pairwise_iff (fun hxy => hxy.symm) (List.mergeSort_perm l tsDesc)).mpr hne
  exact (hs.and hne2).imp (fun hab => lt_of_le_of_ne hab.1 (Ne.symm hab.2))

/-- A `descPage` result is strictly ascending by timestamp. -/
theorem descPage_pairwise {l : List Sample} (n : Nat)
    (hne : l.Pairwise (fun a b => a.timestamp ≠ b.timestamp)) :
    (descPage l n).Pairwise (fun a b => a.timestamp < b.timestamp) := by
  unfold descPage
  rw [List.pairwise_reverse]
  exact List.Pairwise.sublist (List.take_sublist n _) (mergeSort_tsDesc_strict hne)

/-- Every element of a `descPage` result comes from the underlying row set. -/
theorem descPage_mem {l : List Sample} {n : Nat} {x : Sample}
    (hx : x ∈ descPage l n) : x ∈ l := by
  unfold descPage at hx
  rw [List.mem_reverse] at hx
  exact (List.mergeSort_perm l tsDesc).mem_iff.mp (List.mem_of_mem_take hx)

/-- A `descPage` result has `min n total` elements. -/
theorem descPage_length (l : List Sample) (n : Nat) :
    (descPage l n).length = min n l.length := by
  simp [descPage]

/-- Rows left out of a `descPage` result are strictly older than every row
in it: the page holds the rows with the greatest timestamps. -/
theorem descPage_sep {l : List Sample} {n : Nat}
    (hne : l.Pairwise (fun a b => a.timestamp ≠ b.timestamp)) :
    ∀ s ∈ l, s ∉ descPage l n → ∀ x ∈ descPage l n, s.timestamp < x.timestamp := by
  intro s hs hns x hx
  have hsorted := mergeSort_tsDesc_strict hne
  have hsplit : (l.mergeSort tsDesc).take n ++ (l.mergeSort tsDesc).drop n
      = l.mergeSort tsDesc := List.take_append_drop n _
  have hpw : ((l.mergeSort tsDesc).take n ++ (l.mergeSort tsDesc).drop n).Pairwise
      (fun a b => b.timestamp < a.timestamp) := by
    rw [hsplit]; exact hsorted
  have hsep := (List.pairwise_append.mp hpw).2.2
  have hxm : x ∈ (l.mergeSort tsDesc).take n := by
    unfold descPage at hx
    rwa [List.mem_reverse] at hx
  have hsm : s ∈ (l.mergeSort tsDesc).drop n := by
    have hsl : s ∈ (l.mergeSort tsDesc).take n ++ (l.mergeSort tsDesc).drop n := by
      rw [hsplit]
      exact (List.mergeSort_perm l tsDesc).mem_iff.mpr hs
    rcases List.mem_append.mp hsl with h1 | h1
    · exact absurd (show s ∈ descPage l n by
        unfold descPage
        rw [List.mem_reverse]
        exact h1) hns
    · exact h1
  exact hsep x hxm s hsm

/-- When the row set fits within the limit, the page contains all of it. -/
theorem descPage_all {l : List Sample} {n : Nat} (hlen : l.length ≤ n) :
    ∀ s ∈ l, s ∈ descPage l n := by
  intro s hs
  unfold descPage
  rw [List.mem_reverse,
    List.take_of_length_le (by rw [List.length_mergeSort]; exact hlen)]
  exact (List.mergeSort_perm l tsDesc).mem_iff.mpr hs

/-- `ORDER BY timestamp ASC`: the sorted list is pairwise ascending. -/
theorem mergeSort_tsAsc_sorted (l : List Sample) :
    (l.mergeSort tsAsc).Pairwise (fun a b => a.timestamp ≤ b.timestamp) := by
  have h := @List.sorted_mergeSort Sample tsAsc
    (fun a b c hab hbc => by
      simp only [tsAsc, decide_eq_true_eq] at hab hbc ⊢
      omega)
    (fun a b => by
      simp only [tsAsc, Bool.or_eq_true, decide_eq_true_eq]
      omega) l
  exact h.imp (fun hab => by simpa [tsAsc] using hab)

/-- With pairwise-distinct timestamps the ascending sort is strictly
ascending. -/
theorem mergeSort_tsAsc_strict {l : List Sample}
    (hne : l.Pairwise (fun a b => a.timestamp ≠ b.timestamp)) :
    StrictAsc (l.mergeSort tsAsc) := by
  have hs := mergeSort_tsAsc_sorted l
  have hne2 : (l.mergeSort tsAsc).Pairwise (fun a b => a.timestamp ≠ b.timestamp) :=
    (List.Perm.pairwise_iff (fun hxy => hxy.symm) (List.mergeSort_perm l tsAsc)).mpr hne
  exact (hs.and hne2).imp (fun hab => lt_of_le_of_ne hab.1 hab.2)

/-- In a strictly ascending list the head carries the smallest timestamp. -/
theorem head_ts_le_of_strictAsc {r : List Sample} (h : StrictAsc r) (hne : r ≠ [])
    {x : Sample} (hx : x ∈ r) : (r.head hne).timestamp ≤ x.timestamp := by
  cases r with
  | nil => exact absurd rfl hne
  | cons a tl =>
    rw [List.head_cons]
    rcases List.mem_cons.mp hx with rfl | hx2
    · exact le_refl _
    · exact le_of_lt ((List.pairwise_cons.mp h).1 x hx2)

/-- C6: for every symbol and limit `n`, the latest query returns exactly the
`n` stored samples with the greatest timestamps for that symbol, in
ascending timestamp order; if fewer than `n` samples exist it returns all
of them. -/
theorem latest_query_correct (rows : List Sample) (sym : String) (n : Nat)
    (hU : keyUnique rows = true) : LatestSpec rows sym n := by
  have hne : (rowsForSymbol rows sym).Pairwise (fun a b => a.timestamp ≠ b.timestamp) :=
    tsNe_filter hU sym (fun r hr => by simpa using hr)
  refine ⟨descPage_pairwise n hne, ?_, descPage_length _ n, descPage_sep hne, descPage_all⟩
  intro x hx
  exact descPage_mem hx

/-- C2: the `before` query returns the `n` stored samples with
`timestamp < c` closest to the cursor `c` (all of them when fewer exist),
in ascending order, and paginating with the earliest returned timestamp as
the next cursor yields contiguous older slices with no gap and no
overlap. -/
theorem before_query_correct (rows : List Sample) (sym : String) (c : Int) (n : Nat)
    (hU : keyUnique rows = true) : BeforeSpec rows sym c n := by
  have hp : ∀ r : Sample,
      (r.symbol == sym && decide (r.timestamp < c)) = true → r.symbol = sym := by
    intro r hr
    simp only [Bool.and_eq_true, beq_iff_eq] at hr
    exact hr.1
  have hne : (beforeMatching rows sym c).Pairwise (fun a b => a.timestamp ≠ b.timestamp) :=
    tsNe_filter hU sym hp
  have hmem : ∀ x ∈ beforeRows rows sym c n, x ∈ beforeMatching rows sym c ∧ x.timestamp < c := by
    intro x hx
    have h1 : x ∈ beforeMatching rows sym c := descPage_mem hx
    have h2 := List.of_mem_filter h1
    simp only [Bool.and_eq_true, decide_eq_true_eq] at h2
    exact ⟨h1, h2.2⟩
  refine ⟨descPage_pairwise n hne, hmem, descPage_length _ n, descPage_sep hne, ?_⟩
  intro h
  constructor
  · intro s hs hns
    exact descPage_sep hne s hs hns _ (List.head_mem h)
  · intro y hy x hx
    have hyc : y.timestamp < ((beforeRows rows sym c n).head h).timestamp := by
      have hp2 : ∀ r : Sample,
          (r.symbol == sym &&
            decide (r.timestamp < ((beforeRows rows sym c n).head h).timestamp)) = true →
          r.symbol = sym := by
        intro r hr
        simp only [Bool.and_eq_true, beq_iff_eq] at hr
        exact hr.1
      have h1 : y ∈ beforeMatching rows sym ((beforeRows rows sym c n).head h).timestamp :=
        descPage_mem hy
      have h2 := List.of_mem_filter h1
      simp only [Bool.and_eq_true, decide_eq_true_eq] at h2
      exact h2.2
    exact lt_of_lt_of_le hyc (head_ts_le_of_strictAsc (descPage_pairwise n hne) h hx)

/-- Mapping rows through `toPoint` preserves strict timestamp ascent and
yields pairwise-distinct timestamps. -/
theorem map_toPoint_strictAsc {rows : List Sample} (h : StrictAsc rows) :
    (rows.map toPoint).Pairwise (fun a b => a.timestamp < b.timestamp) ∧
    ((rows.map toPoint).map (fun p => p.timestamp)).Nodup := by
  have h1 : (rows.map toPoint).Pairwise (fun a b => a.timestamp < b.timestamp) :=
    List.pairwise_map.mpr h
  refine ⟨h1, ?_⟩
  have h2 : (rows.map toPoint).Pairwise (fun a b => a.timestamp ≠ b.timestamp) :=
    h1.imp (fun hab => ne_of_lt hab)
  exact List.pairwise_map.mpr h2

/-- C5: for every fixed symbol and every query (latest, before, or range,
with any parameters), the returned sample list is strictly ascending by
timestamp and contains no duplicate timestamps. -/
theorem query_ordering_invariant (db : DB) (hU : keyUnique db.market_data = true) :
    OrderingSpec db := by
  constructor
  · intro symbol rawLimit bfr pts h
    cases symbol with
    | none => simp [getMarketData] at h
    | some sym =>
      by_cases hs : sym = ""
      · simp [getMarketData, hs] at h
      · by_cases hl : effectiveLimit rawLimit < 0
        · simp [getMarketData, hs, hl] at h
        · cases bfr with
          | some c =>
            simp [getMarketData, hs, hl] at h
            rw [← h]
            refine map_toPoint_strictAsc (descPage_pairwise _ (tsNe_filter hU sym ?_))
            intro r hr
            simp only [Bool.and_eq_true, beq_iff_eq] at hr
            exact hr.1
          | none =>
            simp [getMarketData, hs, hl] at h
            rw [← h]
            refine map_toPoint_strictAsc (descPage_pairwise _ (tsNe_filter hU sym ?_))
            intro r hr
            simpa using hr
  · intro sym lo hi
    refine mergeSort_tsAsc_strict (tsNe_filter hU sym ?_)
    intro r hr
    simp only [Bool.and_eq_true, beq_iff_eq, decide_eq_true_eq] at hr
    exact hr.1.1

/-- C1: upsert is idempotent with first-write-wins semantics: for a fresh
key, storing sample A succeeds; storing any sample B with the same
(symbol, timestamp) key afterwards is a no-op that still reports success;
and exactly one row is stored for the key, carrying A's field values. -/
theorem upsert_first_write_wins (db : DB) (sym : String) (pA pB : MarketDataPoint)
    (hkey : pB.timestamp = pA.timestamp)
    (hc : db.coins.contains sym = true)
    (hnew : hasKey db.market_data sym pA.timestamp = false) :
    ∃ db1, storePoint db sym pA = Except.ok db1 ∧
      storePoint db1 sym pB = Except.ok db1 ∧
      db1.market_data.filter
        (fun r => r.symbol == sym && r.timestamp == pA.timestamp) = [mkSample sym pA] := by
  have hc2 : sym ∈ db.coins := by simpa using hc
  refine ⟨{ db with market_data := db.market_data ++ [mkSample sym pA] }, ?_, ?_, ?_⟩
  · simp [storePoint, hc2, hnew]
  · have h2 : hasKey (db.market_data ++ [mkSample sym pA]) sym pB.timestamp = true := by
      simp [hasKey, hkey, mkSample]
    simp [storePoint, hc2, h2]
  · rw [List.filter_append]
    have h1 : db.market_data.filter
        (fun r => r.symbol == sym && r.timestamp == pA.timestamp) = [] := by
      rw [List.filter_eq_nil_iff]
      intro a ha hcon
      have hk : hasKey db.market_data sym pA.timestamp = true := by
        simp only [hasKey, List.any_eq_true]
        exact ⟨a, ha, hcon⟩
      simp [hnew] at hk
    rw [h1]
    simp [mkSample]

/-- Lengths of a filter and its complement sum to the whole list length. -/
theorem filter_length_partition (l : List Sample) (p : Sample → Bool) :
    (l.filter p).length + (l.filter (fun r => !p r)).length = l.length := by
  induction l with
  | nil => rfl
  | cons a tl ih =>
    cases h : p a with
    | true =>
      simp [List.filter_cons, h]
      omega
    | false =>
      simp [List.filter_cons, h]
      omega

/-- C9: `pruneOlderThan` removes exactly the samples with
`timestamp < cutoff`, leaves the rest unchanged, and reports the number of
removed rows. -/
theorem prune_retention (db : DB) (cutoff : Int) : PruneSpec db cutoff := by
  refine ⟨?_, ?_, ?_, ?_, rfl⟩
  · intro s hs
    have h1 := List.of_mem_filter hs
    simp only [Bool.not_eq_true', decide_eq_false_iff_not, not_lt] at h1
    exact h1
  · intro s hs hge
    refine List.mem_filter.mpr ⟨hs, ?_⟩
    simp [not_lt.mpr hge]
  · intro s hs
    exact (List.mem_filter.mp hs).1
  · exact filter_length_partition db.market_data (fun r => decide (r.timestamp < cutoff))

/-- A successful `storePoint` either left the table unchanged (key conflict,
`DO NOTHING`) or appended exactly the new row. -/
theorem storePoint_ok_cases (db : DB) (sym : String) (p : MarketDataPoint) {db1 : DB}
    (h : storePoint db sym p = Except.ok db1) :
    db1 = db ∨ db1 = { db with market_data := db.market_data ++ [mkSample sym p] } := by
  unfold storePoint at h
  split at h
  · split at h
    · injection h with h
      exact Or.inl h.symm
    · injection h with h
      exact Or.inr h.symm
  · cases h

/-- After a successful `storePoint`, a row with the stored key exists. -/
theorem hasKey_storePoint_self {db db1 : DB} {sym : String} {p : MarketDataPoint}
    (hs : storePoint db sym p = Except.ok db1) :
    hasKey db1.market_data sym p.timestamp = true := by
  unfold storePoint at hs
  split at hs
  · split at hs
    case isTrue hk =>
      injection hs with h
      subst h
      exact hk
    case isFalse hk =>
      injection hs with h
      subst h
      simp [hasKey, mkSample]
  · cases hs

/-- `storePoint` succeeds whenever the symbol is tracked. -/
theorem storePoint_ok_of_contains {db : DB} {sym : String} (p : MarketDataPoint)
    (hc : db.coins.contains sym = true) :
    ∃ db1, storePoint db sym p = Except.ok db1 := by
  unfold storePoint
  split
  · split
    · exact ⟨db, rfl⟩
    · exact ⟨_, rfl⟩
  · case isFalse h =>
      rw [hc] at h
      exact absurd rfl h

/-- Appending rows preserves key presence. -/
theorem hasKey_append_left {l1 l2 : List Sample} {s : String} {t : Int}
    (h : hasKey l1 s t = true) : hasKey (l1 ++ l2) s t = true := by
  simp only [hasKey, List.any_append, Bool.or_eq_true]
  exact Or.inl (by simpa [hasKey] using h)

/-- A successful `storePoint` preserves every existing key. -/
theorem hasKey_storePoint_ok {db db1 : DB} {sym s : String} {p : MarketDataPoint} {t : Int}
    (hs : storePoint db sym p = Except.ok db1)
    (h : hasKey db.market_data s t = true) : hasKey db1.market_data s t = true := by
  rcases storePoint_ok_cases db sym p hs with h1 | h1 <;> subst h1
  · exact h
  · exact hasKey_append_left h

/-- One per-symbol step of the cycle never changes the tracked symbols. -/
theorem cycleStep_coins (f : String → Option MarketDataPoint) (acc : DB) (sym : String) :
    (cycleStep f acc sym).coins = acc.coins := by
  cases hf : f sym with
  | none => simp [cycleStep, hf]
  | some p =>
    cases hs : storePoint acc sym p with
    | ok acc1 =>
      rcases storePoint_ok_cases acc sym p hs with h | h
      · simp [cycleStep, hf, hs, h]
      · simp [cycleStep, hf, hs, h]
    | error e => simp [cycleStep, hf, hs]

/-- One per-symbol step of the cycle preserves every existing key. -/
theorem hasKey_cycleStep_mono (f : String → Option MarketDataPoint) (acc : DB) (sym : String)
    {s : String} {t : Int} (h : hasKey acc.market_data s t = true) :
    hasKey (cycleStep f acc sym).market_data s t = true := by
  cases hf : f sym with
  | none => simpa [cycleStep, hf] using h
  | some p =>
    cases hs : storePoint acc sym p with
    | ok acc1 =>
      simp only [cycleStep, hf, hs]
      exact hasKey_storePoint_ok hs h
    | error e => simpa [cycleStep, hf, hs] using h

/-- The per-symbol fold of a cycle preserves every existing key. -/
theorem hasKey_foldl_mono (f : String → Option MarketDataPoint) (syms : List String) (acc : DB)
    {s : String} {t : Int} (h : hasKey acc.market_data s t = true) :
    hasKey ((syms.foldl (cycleStep f) acc)).market_data s t = true := by
  induction syms generalizing acc with
  | nil => exact h
  | cons a tl ih =>
    simp only [List.foldl_cons]
    exact ih _ (hasKey_cycleStep_mono f acc a h)

/-- Processing a tracked symbol whose fetch succeeded leaves a row with its
key in the table. -/
theorem hasKey_cycleStep_self (f : String → Option MarketDataPoint) (acc : DB) (sym : String)
    (p : MarketDataPoint) (hc : acc.coins.contains sym = true) (hf : f sym = some p) :
    hasKey (cycleStep f acc sym).market_data sym p.timestamp = true := by
  obtain ⟨acc1, hs⟩ := storePoint_ok_of_contains p hc
  simp only [cycleStep, hf, hs]
  exact hasKey_storePoint_self hs

/-- The per-symbol fold never changes the tracked symbols. -/
theorem foldl_cycleStep_coins (f : String → Option MarketDataPoint) (syms : List String)
    (acc : DB) : ((syms.foldl (cycleStep f) acc)).coins = acc.coins := by
  induction syms generalizing acc with
  | nil => rfl
  | cons a tl ih =>
    simp only [List.foldl_cons]
    rw [ih, cycleStep_coins]

/-- After the per-symbol fold, every tracked symbol whose fetch succeeded
has a row with the fetched key, whatever happened to the other symbols. -/
theorem hasKey_foldl_of_mem (f : String → Option MarketDataPoint) (syms : List String)
    (acc : DB) (sym : String) (p : MarketDataPoint)
    (hmem : sym ∈ syms) (hc : acc.coins.contains sym = true) (hf : f sym = some p) :
    hasKey ((syms.foldl (cycleStep f) acc)).market_data sym p.timestamp = true := by
  induction syms generalizing acc with
  | nil => cases hmem
  | cons a tl ih =>
    simp only [List.foldl_cons]
    rcases List.mem_cons.mp hmem with rfl | h2
    · exact hasKey_foldl_mono f tl _ (hasKey_cycleStep_self f acc sym p hc hf)
    · exact ih _ h2 (by rw [cycleStep_coins]; exact hc)

/-- Pruning keeps every key whose timestamp is at or after the cutoff. -/
theorem hasKey_prune {rows : List Sample} {cutoff : Int} {s : String} {t : Int}
    (h : hasKey rows s t = true) (hge : cutoff ≤ t) :
    hasKey (rows.filter (fun r => !decide (r.timestamp < cutoff))) s t = true := by
  simp only [hasKey, List.any_eq_true] at h ⊢
  obtain ⟨r, hr, hmatch⟩ := h
  refine ⟨r, List.mem_filter.mpr ⟨hr, ?_⟩, hmatch⟩
  have ht : r.timestamp = t := by
    simp only [Bool.and_eq_true, beq_iff_eq] at hmatch
    exact hmatch.2
  simp [ht, not_lt.mpr hge]

/-- C4: per-symbol failure isolation: in one cycle over any symbol set with
any pattern of fetch failures, every tracked symbol whose fetch succeeds
(with a sample inside the retention window) ends up persisted; other
symbols' failures neither block it nor abort the cycle. -/
theorem cycle_isolation (db : DB) (f : String → Option MarketDataPoint) (now : Int)
    (sym : String) (p : MarketDataPoint)
    (hmem : db.coins.contains sym = true)
    (hf : f sym = some p)
    (hfresh : now - RETENTION_MS ≤ p.timestamp) :
    hasKey (runFetchCycle db f now).market_data sym p.timestamp = true := by
  refine hasKey_prune ?_ hfresh
  exact hasKey_foldl_of_mem f db.coins db sym p (by simpa using hmem) hmem hf

/-- C10: a sample whose symbol is not tracked is rejected by the store's
foreign-key reference: `storePoint` fails, no row is created, and the POST
endpoint answers with an error response, leaving the database unchanged. -/
theorem untracked_symbol_rejected (db : DB) (sym : String) (ts : Int) (oi fr pr : Rat)
    (hc : db.coins.contains sym = false) (hne : sym ≠ "") :
    storePoint db sym ⟨ts, oi, fr, pr⟩
      = Except.error ("insert or update on table market_data violates foreign key constraint") ∧
    postMarketData db ⟨some sym, some ts, some oi, some fr, some pr⟩
      = (PostResponse.serverError, db) := by
  have hc2 : ¬(sym ∈ db.coins) := by simpa using hc
  have h1 : storePoint db sym ⟨ts, oi, fr, pr⟩
      = Except.error ("insert or update on table market_data violates foreign key constraint") := by
    simp [storePoint, hc2]
  exact ⟨h1, by simp [postMarketData, hne, h1]⟩

/-- C7: every requested limit is clamped to the hard maximum 500 before the
store is queried, and `latest(symbol, 10000)` answers successfully with at
most 500 samples. -/
theorem limit_clamped :
    (∀ rawLimit, effectiveLimit rawLimit ≤ 500) ∧
    (∀ (db : DB) (sym : String), sym ≠ "" →
      ∃ pts, getMarketData db (some sym) (some 10000) none = GetResponse.ok pts ∧
        pts.length ≤ 500) := by
  constructor
  · intro rawLimit
    exact min_le_right _ _
  · intro db sym hs
    have hl : effectiveLimit (some 10000) = 500 := by decide
    refine ⟨(latestRows db.market_data sym ((500 : Int)).toNat).map toPoint, ?_, ?_⟩
    · simp [getMarketData, hs, hl]
    · rw [List.length_map, latestRows, descPage_length]
      exact le_trans (min_le_left _ _) (by decide)

/-- C3 counterexample: under the source's scheduling (`setInterval` at a
fixed 60 s rate) a cycle lasting 70 s is still running when the next cycle
starts, refuting the claim that a new cycle never starts while the
previous one is running regardless of cycle duration. -/
theorem scheduling_overlap_cex : cyclesOverlap (fun _ => 70000) 0 := by
  norm_num [cyclesOverlap, cycleStart, initialDelayMs, intervalMs]

/-- C3 amended: the source schedules cycles on a fixed-rate timer
(`setInterval` every 60 s after an initial 5 s delay): consecutive cycle
starts are exactly 60 s apart independent of cycle durations, and cycle
`k` overlaps cycle `k+1` exactly when its duration exceeds the 60 s
interval. -/
theorem scheduling_fixed_rate (cycleDuration : Nat → Nat) (k : Nat) :
    cycleStart (k + 1) = cycleStart k + intervalMs ∧
    (cyclesOverlap cycleDuration k ↔ intervalMs < cycleDuration k) := by
  unfold cyclesOverlap cycleStart initialDelayMs intervalMs
  constructor
  · ring
  · omega

/-- C8 counterexample: a request with an out-of-range limit (10000, above
the 500 cap) is not rejected at the query-service boundary — the handler
answers it (after clamping) instead of returning a 400; and a negative
limit (-5) is not rejected at the boundary either: it reaches the store
and fails there as a 500. -/
theorem invalid_limit_not_rejected_cex :
    (500 : Int) < 10000 ∧
    isRejected (getMarketData dbW (some "BTCUSDT") (some 10000) none) = false ∧
    getMarketData dbW (some "BTCUSDT") (some (-5)) none = GetResponse.serverError := by
  refine ⟨by decide, ?_, ?_⟩ <;> decide

/-- C8 amended: a request with a missing or empty symbol is rejected at the
boundary with 400 before any store access; out-of-range limits are never
rejected: the effective limit is always clamped to at most 500 (so no
request is coerced into an unbounded query), and a negative parsed limit
reaches the store and surfaces as a 500 server error. -/
theorem invalid_input_handling :
    (∀ (db : DB) rawLimit bfr,
      getMarketData db none rawLimit bfr = GetResponse.badRequest ("symbol query param required")) ∧
    (∀ (db : DB) rawLimit bfr,
      getMarketData db (some "") rawLimit bfr
        = GetResponse.badRequest ("symbol query param required")) ∧
    (∀ rawLimit, effectiveLimit rawLimit ≤ 500) ∧
    (∀ (db : DB) (sym : String) (v : Int) bfr, sym ≠ "" → v < 0 →
      getMarketData db (some sym) (some v) bfr = GetResponse.serverError) := by
  refine ⟨fun db rawLimit bfr => rfl, fun db rawLimit bfr => by simp [getMarketData], ?_, ?_⟩
  · intro rawLimit
    exact min_le_right _ _
  · intro db sym v bfr hs hv
    have hl : effectiveLimit (some v) < 0 := by
      simp only [effectiveLimit]
      have hvz : ¬(v = 0) := by omega
      rw [if_neg hvz]
      omega
  -- the negative limit reaches the store and the query errors out
    cases bfr with
    | none => simp [getMarketData, hs, hl]
    | some c => simp [getMarketData, hs, hl]

/-- C1 instantiated: on the concrete database, a fresh write at timestamp
4000 followed by a conflicting write is a successful no-op and exactly the
first sample's row is stored. -/
theorem upsert_first_write_wins_witness :
    ((⟨4000, 61, 3, 6⟩ : MarketDataPoint).timestamp
        = (⟨4000, 60, 2, 5⟩ : MarketDataPoint).timestamp ∧
      dbW.coins.contains "BTCUSDT" = true ∧
      hasKey dbW.market_data "BTCUSDT" (4000 : Int) = false) ∧
    (∃ db1, storePoint dbW "BTCUSDT" ⟨4000, 60, 2, 5⟩ = Except.ok db1 ∧
      storePoint db1 "BTCUSDT" ⟨4000, 61, 3, 6⟩ = Except.ok db1 ∧
      db1.market_data.filter
          (fun r => r.symbol == "BTCUSDT" && r.timestamp == (4000 : Int))
        = [mkSample "BTCUSDT" ⟨4000, 60, 2, 5⟩]) :=
  ⟨⟨rfl, by decide, by decide⟩,
    upsert_first_write_wins dbW "BTCUSDT" ⟨4000, 60, 2, 5⟩ ⟨4000, 61, 3, 6⟩ rfl
      (by decide) (by decide)⟩

/-- C2 instantiated: the before query on the concrete database at cursor
2500 with limit 2 satisfies the pagination specification. -/
theorem before_query_correct_witness :
    keyUnique dbW.market_data = true ∧ BeforeSpec dbW.market_data "BTCUSDT" 2500 2 :=
  ⟨by decide, before_query_correct dbW.market_data "BTCUSDT" 2500 2 (by decide)⟩

/-- C3 amended, instantiated: cycle starts are 60 s apart, and a 30 s cycle
does not overlap the next start. -/
theorem scheduling_fixed_rate_witness :
    cycleStart 1 = cycleStart 0 + intervalMs ∧
    (cyclesOverlap (fun _ => 30000) 0 ↔ intervalMs < 30000) :=
  scheduling_fixed_rate (fun _ => 30000) 0

/-- C4 instantiated: in a cycle over {A, B, C} where B's fetch fails, both
A's and C's fresh samples are persisted. -/
theorem cycle_isolation_witness :
    (dbABC.coins.contains "BTCUSDT" = true ∧
      fW "BTCUSDT" = some ⟨600000, 10, 1, 50⟩ ∧
      (1000000 : Int) - RETENTION_MS ≤ (600000 : Int)) ∧
    hasKey (runFetchCycle dbABC fW 1000000).market_data "BTCUSDT" 600000 = true ∧
    hasKey (runFetchCycle dbABC fW 1000000).market_data "SOLUSDT" 600001 = true :=
  ⟨⟨by decide, by decide, by decide⟩,
    cycle_isolation dbABC fW 1000000 "BTCUSDT" ⟨600000, 10, 1, 50⟩
      (by decide) (by decide) (by decide),
    cycle_isolation dbABC fW 1000000 "SOLUSDT" ⟨600001, 11, 1, 60⟩
      (by decide) (by decide) (by decide)⟩

/-- C5 instantiated: the ordering invariant holds on the concrete
database. -/
theorem query_ordering_invariant_witness :
    keyUnique dbW.market_data = true ∧ OrderingSpec dbW :=
  ⟨by decide, query_ordering_invariant dbW (by decide)⟩

/-- C6 instantiated: the latest query on the concrete database with limit 2
satisfies the specification. -/
theorem latest_query_correct_witness :
    keyUnique dbW.market_data = true ∧ LatestSpec dbW.market_data "BTCUSDT" 2 :=
  ⟨by decide, latest_query_correct dbW.market_data "BTCUSDT" 2 (by decide)⟩

/-- C7 instantiated: a requested limit of 10000 is clamped and answered
with at most 500 samples on the concrete database. -/
theorem limit_clamped_witness :
    effectiveLimit (some 10000) ≤ 500 ∧
    ("BTCUSDT" ≠ "" ∧
      ∃ pts, getMarketData dbW (some "BTCUSDT") (some 10000) none = GetResponse.ok pts ∧
        pts.length ≤ 500) :=
  ⟨limit_clamped.1 (some 10000), by decide, limit_clamped.2 dbW "BTCUSDT" (by decide)⟩

/-- C8 amended, instantiated: missing and empty symbols are rejected with
400, the limit 10000 is clamped under 500, and the limit -5 surfaces as a
500 from the store on the concrete database. -/
theorem invalid_input_handling_witness :
    getMarketData dbW none (some 100) none
        = GetResponse.badRequest ("symbol query param required") ∧
    getMarketData dbW (some "") (some 100) none
        = GetResponse.badRequest ("symbol query param required") ∧
    effectiveLimit (some 10000) ≤ 500 ∧
    ("BTCUSDT" ≠ "" ∧ (-5 : Int) < 0 ∧
      getMarketData dbW (some "BTCUSDT") (some (-5)) none = GetResponse.serverError) :=
  ⟨invalid_input_handling.1 dbW (some 100) none,
   invalid_input_handling.2.1 dbW (some 100) none,
   invalid_input_handling.2.2.1 (some 10000),
   by decide, by decide,
   invalid_input_handling.2.2.2 dbW "BTCUSDT" (-5) none (by decide) (by decide)⟩

/-- C9 instantiated: pruning the concrete database at cutoff 1500 satisfies
the retention specification. -/
theorem prune_retention_witness : PruneSpec dbW 1500 :=
  prune_retention dbW 1500

/-- C10 instantiated: storing a sample for the untracked symbol DOGEUSDT
fails with the foreign-key error and the POST endpoint answers 500 leaving
the database unchanged. -/
theorem untracked_symbol_rejected_witness :
    (dbW.coins.contains "DOGEUSDT" = false ∧ "DOGEUSDT" ≠ "") ∧
    (storePoint dbW "DOGEUSDT" ⟨5000, 1, 1, 1⟩
        = Except.error ("insert or update on table market_data violates foreign key constraint") ∧
      postMarketData dbW ⟨some "DOGEUSDT", some 5000, some 1, some 1, some 1⟩
        = (PostResponse.serverError, dbW)) :=
  ⟨⟨by decide, by decide⟩,
    untracked_symbol_rejected dbW "DOGEUSDT" 5000 1 1 1 (by decide) (by decide)⟩
